import Mathlib

/-!
Verification of the batch-file lifecycle and progress logic of
`blockchain_scanner.py` (class `BlockchainScanner`).

Modelling conventions, used consistently below:

* JSON values (what `response.json()` / `json.load` produce) are modelled by
  the inductive `Json`; Python `dict`s are association lists in insertion
  order, and `d.get(k)` / `k in d` use the first entry with key `k`.
* The data directory is modelled by `DataDir`: the pair of files
  `addresses_i.txt` / `addresses_with_balance_i.txt` is keyed by its integer
  index `i`, each file carried as its list of lines.  Filename parsing from
  `glob` results is not re-modelled: an entry keyed `i` stands for the
  well-formed filename `addresses_i.txt`.
* A Python exception is modelled with `Except` wherever a claim depends on
  it (`load_progress`, the extractor's `try`/`except`).  A few deep paths on
  which the Python expression would raise `TypeError` inside library calls
  are noted at each definition; no theorem below depends on them.
* Python `float` arithmetic on balances is modelled by exact rational
  arithmetic (`ℚ`).  Every balance value appearing in a theorem below is
  exactly representable in binary floating point, so the model and the
  float computation agree on it.
-/

/-! ## JSON values -/

inductive Json where
  | null
  | bool (b : Bool)
  | num (n : Int)
  | str (s : String)
  | arr (elems : List Json)
  | obj (fields : List (String × Json))
  deriving Repr

mutual

def jsonDecEq : (a b : Json) → Decidable (a = b)
  | .null, .null => isTrue rfl
  | .bool b1, .bool b2 =>
    match decEq b1 b2 with
    | isTrue h => isTrue (by rw [h])
    | isFalse h => isFalse (fun hh => h (Json.bool.inj hh))
  | .num n1, .num n2 =>
    match decEq n1 n2 with
    | isTrue h => isTrue (by rw [h])
    | isFalse h => isFalse (fun hh => h (Json.num.inj hh))
  | .str s1, .str s2 =>
    match decEq s1 s2 with
    | isTrue h => isTrue (by rw [h])
    | isFalse h => isFalse (fun hh => h (Json.str.inj hh))
  | .arr l1, .arr l2 =>
    match jsonListDecEq l1 l2 with
    | isTrue h => isTrue (by rw [h])
    | isFalse h => isFalse (fun hh => h (Json.arr.inj hh))
  | .obj f1, .obj f2 =>
    match jsonFieldsDecEq f1 f2 with
    | isTrue h => isTrue (by rw [h])
    | isFalse h => isFalse (fun hh => h (Json.obj.inj hh))
  | .null, .bool _ => isFalse (fun h => Json.noConfusion h)
  | .null, .num _ => isFalse (fun h => Json.noConfusion h)
  | .null, .str _ => isFalse (fun h => Json.noConfusion h)
  | .null, .arr _ => isFalse (fun h => Json.noConfusion h)
  | .null, .obj _ => isFalse (fun h => Json.noConfusion h)
  | .bool _, .null => isFalse (fun h => Json.noConfusion h)
  | .bool _, .num _ => isFalse (fun h => Json.noConfusion h)
  | .bool _, .str _ => isFalse (fun h => Json.noConfusion h)
  | .bool _, .arr _ => isFalse (fun h => Json.noConfusion h)
  | .bool _, .obj _ => isFalse (fun h => Json.noConfusion h)
  | .num _, .null => isFalse (fun h => Json.noConfusion h)
  | .num _, .bool _ => isFalse (fun h => Json.noConfusion h)
  | .num _, .str _ => isFalse (fun h => Json.noConfusion h)
  | .num _, .arr _ => isFalse (fun h => Json.noConfusion h)
  | .num _, .obj _ => isFalse (fun h => Json.noConfusion h)
  | .str _, .null => isFalse (fun h => Json.noConfusion h)
  | .str _, .bool _ => isFalse (fun h => Json.noConfusion h)
  | .str _, .num _ => isFalse (fun h => Json.noConfusion h)
  | .str _, .arr _ => isFalse (fun h => Json.noConfusion h)
  | .str _, .obj _ => isFalse (fun h => Json.noConfusion h)
  | .arr _, .null => isFalse (fun h => Json.noConfusion h)
  | .arr _, .bool _ => isFalse (fun h => Json.noConfusion h)
  | .arr _, .num _ => isFalse (fun h => Json.noConfusion h)
  | .arr _, .str _ => isFalse (fun h => Json.noConfusion h)
  | .arr _, .obj _ => isFalse (fun h => Json.noConfusion h)
  | .obj _, .null => isFalse (fun h => Json.noConfusion h)
  | .obj _, .bool _ => isFalse (fun h => Json.noConfusion h)
  | .obj _, .num _ => isFalse (fun h => Json.noConfusion h)
  | .obj _, .str _ => isFalse (fun h => Json.noConfusion h)
  | .obj _, .arr _ => isFalse (fun h => Json.noConfusion h)

def jsonListDecEq : (a b : List Json) → Decidable (a = b)
  | [], [] => isTrue rfl
  | [], _ :: _ => isFalse (fun h => List.noConfusion h)
  | _ :: _, [] => isFalse (fun h => List.noConfusion h)
  | x :: xs, y :: ys =>
    match jsonDecEq x y with
    | isTrue h1 =>
      match jsonListDecEq xs ys with
      | isTrue h2 => isTrue (by rw [h1, h2])
      | isFalse h2 => isFalse (fun h => h2 (List.cons.inj h).2)
    | isFalse h1 => isFalse (fun h => h1 (List.cons.inj h).1)

def jsonFieldsDecEq : (a b : List (String × Json)) → Decidable (a = b)
  | [], [] => isTrue rfl
  | [], _ :: _ => isFalse (fun h => List.noConfusion h)
  | _ :: _, [] => isFalse (fun h => List.noConfusion h)
  | (k1, v1) :: xs, (k2, v2) :: ys =>
    match decEq k1 k2 with
    | isTrue hk =>
      match jsonDecEq v1 v2 with
      | isTrue hv =>
        match jsonFieldsDecEq xs ys with
        | isTrue h2 => isTrue (by rw [hk, hv, h2])
        | isFalse h2 => isFalse (fun h => h2 (List.cons.inj h).2)
      | isFalse hv => isFalse (fun h => hv (congrArg Prod.snd (List.cons.inj h).1))
    | isFalse hk => isFalse (fun h => hk (congrArg Prod.fst (List.cons.inj h).1))

end

instance : DecidableEq Json := jsonDecEq

/-- Python `d.get(k)` on a dict modelled as an association list
(also used to model `k in d` followed by `d[k]`). -/
def jLookup (fields : List (String × Json)) (k : String) : Option Json :=
  (fields.find? (fun p => p.1 == k)).map (fun p => p.2)

/-- Python truthiness of a JSON value, as used by `if not block_data:`
(`None` is handled separately by the surrounding `Option`). -/
def jsonTruthy : Json → Bool
  | .null => false
  | .bool b => b
  | .num n => n != 0
  | .str s => s != ""
  | .arr [] => false
  | .arr (_ :: _) => true
  | .obj [] => false
  | .obj (_ :: _) => true

mutual

/-- Python `str()` / f-string rendering of a JSON value.  Scalar cases follow
Python exactly; container cases follow Python `repr` of the decoded value. -/
def pyRepr : Json → String
  | .null => "None"
  | .bool true => "True"
  | .bool false => "False"
  | .num n => toString n
  | .str s => "\x27" ++ s ++ "\x27"
  | .arr l => "[" ++ pyReprList l ++ "]"
  | .obj fs => "\x7b" ++ pyReprFields fs ++ "\x7d"

def pyReprList : List Json → String
  | [] => ""
  | [x] => pyRepr x
  | x :: y :: xs => pyRepr x ++ ", " ++ pyReprList (y :: xs)

def pyReprFields : List (String × Json) → String
  | [] => ""
  | [(k, v)] => "\x27" ++ k ++ "\x27: " ++ pyRepr v
  | (k, v) :: y :: xs => "\x27" ++ k ++ "\x27: " ++ pyRepr v ++ ", " ++ pyReprFields (y :: xs)

end

/-- Python `f"{x}"`: the string itself for a `str`, `repr` otherwise. -/
def pyStr : Json → String
  | .str s => s
  | j => pyRepr j

/-! ## Progress store (`load_progress`, `save_progress`) -/

/-- State of `data/progress.json` as observed by `open` + `json.load`. -/
inductive ProgressFileState where
  /-- the file does not exist (`FileNotFoundError`) -/
  | absent
  /-- the file holds bytes that are not valid JSON (`json.JSONDecodeError`) -/
  | invalid
  /-- the file holds valid JSON that parses to `j` -/
  | parsed (j : Json)
  deriving DecidableEq, Repr

/-- The progress record serialised by `save_progress`
(blockchain_scanner.py:93-99).  All fields are modelled as non-negative
integers; `timestamp` stands for the `time.time()` value. -/
structure ProgressRecord where
  current_block : Nat
  timestamp : Nat
  total_addresses : Nat
  addresses_with_balance : Nat
  current_file_index : Nat
  deriving DecidableEq, Repr

/-- `save_progress` (blockchain_scanner.py:91-101): serialise the progress
dict and overwrite `data/progress.json` with it. -/
def save_progress (r : ProgressRecord) : ProgressFileState :=
  .parsed (.obj
    [("current_block", .num r.current_block),
     ("timestamp", .num r.timestamp),
     ("total_addresses", .num r.total_addresses),
     ("addresses_with_balance", .num r.addresses_with_balance),
     ("current_file_index", .num r.current_file_index)])

/-- `load_progress` (blockchain_scanner.py:82-89): `json.load` the file and
return `data.get('current_block', 0)`; `FileNotFoundError` and
`json.JSONDecodeError` are caught and yield `0`.  When the file parses to a
non-dict JSON value, `data.get` raises `AttributeError`, which the `except`
clause does not catch; that uncaught exception is the `.error` branch. -/
def load_progress (st : ProgressFileState) : Except String Json :=
  match st with
  | .absent => .ok (.num 0)
  | .invalid => .ok (.num 0)
  | .parsed (.obj fields) => .ok ((jLookup fields "current_block").getD (.num 0))
  | .parsed _ => .error "AttributeError"

/-- Whether a `load_progress` outcome is an uncaught exception. -/
def loadRaises : Except String Json → Bool
  | .error _ => true
  | .ok _ => false

/-- Whether a JSON value is a dict. -/
def jsonIsObj : Json → Bool
  | .obj _ => true
  | _ => false

/-! ## Balance checker (`check_balance`) and balance-log formatting -/

/-- `check_balance` (blockchain_scanner.py:135-149).  `resp` is the decoded
JSON body of the balance endpoint; `none` stands for a request failure or a
non-200 status, both of which make the Python function fall through to
`return 0.0`.  Paths on which the Python expression would raise `TypeError`
uncaught (a non-dict entry under the address, a non-numeric
`final_balance`) are modelled as `0`; no theorem below exercises them. -/
def check_balance (resp : Option Json) (address : String) : ℚ :=
  match resp with
  | some (.obj data) =>
    match jLookup data address with
    | some (.obj bdata) =>
      (match jLookup bdata "final_balance" with
       | some (.num n) => (n : ℚ)
       | _ => 0) / 100000000
    | _ => 0
  | _ => 0

/-- Decimal digits of `n` left-padded with zeros to width 8. -/
def padZeros8 (n : Nat) : String :=
  let d := toString n
  String.mk (List.replicate (8 - d.length) '0') ++ d

/-- Python `f"{q:.8f}"` for the non-negative balances produced by
`check_balance`: round to 8 decimal places and pad the fraction to 8
digits. -/
def format8f (q : ℚ) : String :=
  let s : Int := ⌊q * 100000000 + 1 / 2⌋
  toString (s / 100000000) ++ "." ++ padZeros8 (s % 100000000).toNat

/-- The line appended to the balance log (blockchain_scanner.py:185):
`f"{address} - {balance:.8f} BTC"` (files are modelled as lists of lines,
so the trailing newline is implicit). -/
def balanceLine (address : String) (balance : ℚ) : String :=
  address ++ " - " ++ format8f balance ++ " BTC"

/-! ## Address extractor (`extract_addresses_from_block`)

The Python function builds a `set()` inside a `try`; any exception aborts
the walk and the function returns `list(addresses)` with whatever was
collected so far.  The set is modelled as a duplicate-free list in first
insertion order.  `Except` carries the accumulated addresses on both the
normal and the exception path. -/

/-- `addresses.add a` on the insertion-ordered duplicate-free list model. -/
def insertAddr (acc : List Json) (a : Json) : List Json :=
  if a ∈ acc then acc else acc ++ [a]

/-- The addresses accumulated by an extractor step, whether or not the step
raised. -/
def exVal : Except (List Json) (List Json) → List Json
  | .ok l => l
  | .error l => l

/-- Fold a raising step over a list: an exception aborts the iteration and
propagates (carrying the addresses accumulated so far). -/
def foldE (f : List Json → Json → Except (List Json) (List Json)) :
    List Json → List Json → Except (List Json) (List Json)
  | acc, [] => .ok acc
  | acc, x :: xs =>
    match f acc x with
    | .ok acc2 => foldE f acc2 xs
    | .error e => .error e

/-- One output (blockchain_scanner.py:127-129): `if 'addr' in output:
addresses.add(output['addr'])`.  A non-dict output makes the membership
test or the subscript raise `TypeError`; modelled as the exception path. -/
def procOutput (acc : List Json) (output : Json) : Except (List Json) (List Json) :=
  match output with
  | .obj fields =>
    match jLookup fields "addr" with
    | some v => .ok (insertAddr acc v)
    | none => .ok acc
  | _ => .error acc

/-- One transaction (blockchain_scanner.py:127): `for output in
tx.get('out', [])`.  `tx.get` on a non-dict raises `AttributeError`, and
iterating a non-list `out` value raises on realistic payloads; both are
modelled as the exception path. -/
def procTx (acc : List Json) (tx : Json) : Except (List Json) (List Json) :=
  match tx with
  | .obj fields =>
    match jLookup fields "out" with
    | some (.arr outs) => foldE procOutput acc outs
    | none => .ok acc
    | some _ => .error acc
  | _ => .error acc

/-- One block segment (blockchain_scanner.py:124-126): `if 'tx' in block:
for tx in block['tx'][:3]` — only the first 3 transactions are sampled. -/
def procBlock (acc : List Json) (block : Json) : Except (List Json) (List Json) :=
  match block with
  | .obj fields =>
    match jLookup fields "tx" with
    | some (.arr txs) => foldE procTx acc (txs.take 3)
    | some _ => .error acc
    | none => .ok acc
  | _ => .error acc

/-- `extract_addresses_from_block` (blockchain_scanner.py:116-133): walk
`block_data['blocks']`, collect `output['addr']` values into a set, and
return it as a list; on any exception return whatever was collected. -/
def extract_addresses_from_block (block_data : Json) : List Json :=
  exVal (match block_data with
    | .obj fields =>
      match jLookup fields "blocks" with
      | some (.arr blocks) => foldE procBlock [] blocks
      | some _ => .error []
      | none => .ok []
    | _ => .error [])

/-- Observation function for the sampling bound: the `addr` value of one
output, if present. -/
def outputAddrs (output : Json) : List Json :=
  match output with
  | .obj fields =>
    match jLookup fields "addr" with
    | some v => [v]
    | none => []
  | _ => []

/-- Observation function: all output addresses of one transaction. -/
def txOutputAddrs (tx : Json) : List Json :=
  match tx with
  | .obj fields =>
    match jLookup fields "out" with
    | some (.arr outs) => (outs.map outputAddrs).flatten
    | _ => []
  | _ => []

/-- Observation function: all output addresses across the sampled (first 3)
transactions of one block segment. -/
def blockSampledAddrs (block : Json) : List Json :=
  match block with
  | .obj fields =>
    match jLookup fields "tx" with
    | some (.arr txs) => ((txs.take 3).map txOutputAddrs).flatten
    | _ => []
  | _ => []

/-- Observation function: all output addresses (with multiplicity) across
the sampled transactions of every block segment of a response. -/
def sampledAddrs (block_data : Json) : List Json :=
  match block_data with
  | .obj fields =>
    match jLookup fields "blocks" with
    | some (.arr blocks) => (blocks.map blockSampledAddrs).flatten
    | _ => []
  | _ => []

/-! ## Batch file manager -/

abbrev FileLines := List String

/-- The `data/` directory: the lines of each `addresses_i.txt` and each
`addresses_with_balance_i.txt`, keyed by the index `i`. -/
structure DataDir where
  addrFiles : List (Nat × FileLines)
  balFiles : List (Nat × FileLines)
  deriving DecidableEq, Repr

/-- `os.path.exists` + read: the content of the file with index `i`. -/
def lookupFile (fs : List (Nat × FileLines)) (i : Nat) : Option FileLines :=
  (fs.find? (fun p => p.1 == i)).map (fun p => p.2)

/-- `open(path, 'w')`: truncate the file with index `i` to `content` if it
exists, create it otherwise. -/
def setFile (fs : List (Nat × FileLines)) (i : Nat) (content : FileLines) :
    List (Nat × FileLines) :=
  if (fs.find? (fun p => p.1 == i)).isSome then
    fs.map (fun p => if p.1 == i then (i, content) else p)
  else fs ++ [(i, content)]

/-- One entry of the `get_available_files` listing (index, line count of the
address file, line count of the balance file; the path fields of the source
dict are determined by `index` and therefore not repeated). -/
structure FileInfo where
  index : Nat
  address_count : Nat
  balance_count : Nat
  deriving DecidableEq, Repr

/-- The unsorted pass of `get_available_files` (blockchain_scanner.py:
212-235): every address file whose balance companion exists contributes an
entry with the two line counts. -/
def listingRaw (d : DataDir) : List FileInfo :=
  d.addrFiles.filterMap (fun p =>
    match lookupFile d.balFiles p.1 with
    | some bl => some ⟨p.1, p.2.length, bl.length⟩
    | none => none)

/-- Stable insertion into a list sorted by ascending `index`. -/
def insertSorted (x : FileInfo) : List FileInfo → List FileInfo
  | [] => [x]
  | y :: ys => if y.index < x.index then y :: insertSorted x ys else x :: y :: ys

/-- Python `sorted(files, key=lambda x: x['index'])`, modelled as a stable
insertion sort (extensionally the same function). -/
def pySortedByIndex (l : List FileInfo) : List FileInfo :=
  l.foldr insertSorted []

/-- `get_available_files` (blockchain_scanner.py:207-237). -/
def get_available_files (d : DataDir) : List FileInfo :=
  pySortedByIndex (listingRaw d)

/-- `delete_files` (blockchain_scanner.py:239-254): remove both files of the
pair if present; with the modelled filesystem no `OSError` can occur, so
the result flag is always `true`. -/
def delete_files (d : DataDir) (file_index : Nat) : DataDir × Bool :=
  (⟨d.addrFiles.filter (fun p => p.1 != file_index),
    d.balFiles.filter (fun p => p.1 != file_index)⟩, true)

/-- Python `l[:-k]`: for `k = 0` this is `l[:0] = []`, otherwise all but the
last `k` elements. -/
def pySliceDropLast {α : Type} (l : List α) (k : Nat) : List α :=
  if k = 0 then [] else l.take (l.length - k)

/-- `cleanup_old_files` (blockchain_scanner.py:256-272).  Returns the new
directory and the number of deleted pairs (`len(files_to_delete)`, the
count the source prints). -/
def cleanup_old_files (d : DataDir) (keep_count : Nat) : DataDir × Nat :=
  let files := get_available_files d
  if files.length ≤ keep_count then (d, 0)
  else
    let sorted := pySortedByIndex files
    let files_to_delete := pySliceDropLast sorted keep_count
    (files_to_delete.foldl (fun acc fi => (delete_files acc fi.index).1) d,
     files_to_delete.length)

/-- `create_new_files` (blockchain_scanner.py:68-80): increment the active
index and `open(path, 'w')` both files of the new pair (truncating them if
they already exist).  Returns the new index and the new directory. -/
def create_new_files (current_file_index : Nat) (d : DataDir) : Nat × DataDir :=
  let idx := current_file_index + 1
  (idx, ⟨setFile d.addrFiles idx [], setFile d.balFiles idx []⟩)

/-- A real directory listing has pairwise distinct filenames, hence
pairwise distinct indices. -/
def keysNodup (fs : List (Nat × FileLines)) : Prop :=
  (fs.map (fun p => p.1)).Nodup

instance (fs : List (Nat × FileLines)) : Decidable (keysNodup fs) := by
  unfold keysNodup; infer_instance

/-! ## Scan orchestrator (`scan_blocks`) -/

/-- The external world seen by one scan run: the block fetch outcome per
height (`get_block_data`, blockchain_scanner.py:103-114 — `none` stands for
a request failure or non-200 status), the balance-endpoint response per
address, and the `time.time()` clock used by `save_progress`. -/
structure ScanEnv where
  fetch : Nat → Option Json
  balanceResp : String → Option Json
  now : Nat

/-- The mutable state touched by the scan loop: the loop counter, the lines
of the two active batch files, the two in-memory counters, and the progress
file. -/
structure ScanState where
  current_block : Nat
  addrLines : List String
  balLines : List String
  total_addresses : Nat
  addresses_with_balance : Nat
  progressFile : ProgressFileState
  deriving DecidableEq, Repr

/-- The per-address body (blockchain_scanner.py:175-187): append the
address to the address log, bump `total_addresses`, check the balance, and
when it is positive append the formatted line to the balance log and bump
`addresses_with_balance`. -/
def processAddress (env : ScanEnv) (st : ScanState) (address : Json) : ScanState :=
  let a := pyStr address
  let st1 : ScanState :=
    { st with addrLines := st.addrLines ++ [a],
              total_addresses := st.total_addresses + 1 }
  let balance := check_balance (env.balanceResp a) a
  if balance > 0 then
    { st1 with balLines := st1.balLines ++ [balanceLine a balance],
               addresses_with_balance := st1.addresses_with_balance + 1 }
  else st1

/-- One iteration of the `while` body (blockchain_scanner.py:160-194) at
height `st.current_block`: on a missing or falsy fetch result, advance the
height and `continue`; otherwise extract the addresses, process each, save
progress with the height just processed, and advance the height. -/
def scanStep (env : ScanEnv) (current_file_index : Nat) (st : ScanState) : ScanState :=
  match env.fetch st.current_block with
  | some bd =>
    if jsonTruthy bd then
      let addresses := extract_addresses_from_block bd
      let st1 := addresses.foldl (processAddress env) st
      let rec1 : ProgressRecord :=
        ⟨st.current_block, env.now, st1.total_addresses,
         st1.addresses_with_balance, current_file_index⟩
      let st2 : ScanState := { st1 with progressFile := save_progress rec1 }
      { st2 with current_block := st2.current_block + 1 }
    else { st with current_block := st.current_block + 1 }
  | none => { st with current_block := st.current_block + 1 }

/-- `n` iterations of the `while` body. -/
def scanIter (env : ScanEnv) (current_file_index : Nat) : Nat → ScanState → ScanState
  | 0, st => st
  | n + 1, st => scanIter env current_file_index n (scanStep env current_file_index st)

/-- The summary dict returned by `scan_blocks` (blockchain_scanner.py:
200-205). -/
structure ScanResult where
  current_block : Nat
  total_addresses : Nat
  addresses_with_balance : Nat
  current_file_index : Nat
  deriving DecidableEq, Repr

/-- `scan_blocks` (blockchain_scanner.py:151-205).  With `end_block = None`
the loop bound is `start_block + 20`; the `while` guard `current_block <=
end_block` together with the unconditional `current_block += 1` of every
branch makes the loop run exactly `end_block + 1 - start_block` times,
which is how it is phrased here (`scanStep_current_block` below proves the
per-iteration advance).  Cooperative cancellation (`is_running`) and the
blanket `except` cannot fire in this single-threaded, exception-free
model, so the loop always runs to the bound. -/
def scan_blocks (env : ScanEnv) (current_file_index : Nat) (start_block : Nat)
    (end_block : Option Nat) (st0 : ScanState) : ScanState × ScanResult :=
  let endB := end_block.getD (start_block + 20)
  let st := scanIter env current_file_index (endB + 1 - start_block)
    ({ st0 with current_block := start_block })
  (st, ⟨st.current_block, st.total_addresses, st.addresses_with_balance, current_file_index⟩)

/-! ## General lemmas about the embedded operations -/

/-- `save_progress` then `load_progress` recovers exactly the
`current_block` field. -/
theorem load_progress_save_progress (r : ProgressRecord) :
    load_progress (save_progress r) = .ok (.num r.current_block) := by
  rfl

/-- `processAddress` never touches the loop counter. -/
theorem processAddress_current_block (env : ScanEnv) (st : ScanState) (a : Json) :
    (processAddress env st a).current_block = st.current_block := by
  unfold processAddress
  by_cases h : check_balance (env.balanceResp (pyStr a)) (pyStr a) > 0 <;> simp [h]

/-- Processing a block's address list never touches the loop counter. -/
theorem foldl_processAddress_current_block (env : ScanEnv) (l : List Json) (st : ScanState) :
    (l.foldl (processAddress env) st).current_block = st.current_block := by
  induction l generalizing st with
  | nil => rfl
  | cons a l ih => rw [List.foldl_cons, ih, processAddress_current_block]

/-- Every branch of the `while` body ends in `current_block += 1`. -/
theorem scanStep_current_block (env : ScanEnv) (fi : Nat) (st : ScanState) :
    (scanStep env fi st).current_block = st.current_block + 1 := by
  unfold scanStep
  cases h : env.fetch st.current_block with
  | none => rfl
  | some bd =>
    by_cases ht : jsonTruthy bd = true <;>
      simp [ht, foldl_processAddress_current_block]

/-- `n` iterations advance the loop counter by exactly `n`. -/
theorem scanIter_current_block (env : ScanEnv) (fi : Nat) (n : Nat) (st : ScanState) :
    (scanIter env fi n st).current_block = st.current_block + n := by
  induction n generalizing st with
  | zero => rfl
  | succ n ih =>
    rw [scanIter, ih, scanStep_current_block]
    omega

/-- An address whose balance check yields `0` is appended to the address
log and counted, and nothing else happens. -/
theorem processAddress_zero_balance (env : ScanEnv) (st : ScanState) (address : Json)
    (h : check_balance (env.balanceResp (pyStr address)) (pyStr address) = 0) :
    processAddress env st address =
      { st with addrLines := st.addrLines ++ [pyStr address],
                total_addresses := st.total_addresses + 1 } := by
  simp only [processAddress]
  rw [h]
  simp

/-! ## Claim C2 — save/load round trip -/

/-- C2, counterexample: two progress records that differ (in
`total_addresses`) produce identical `load()` results, so `load()` after
`save(record)` cannot yield a record equal to the one saved — the source's
`load_progress` reads back only `current_block`. -/
theorem C2_counterexample :
    load_progress (save_progress ⟨7, 11, 5, 2, 1⟩) =
      load_progress (save_progress ⟨7, 11, 6, 2, 1⟩) ∧
    (⟨7, 11, 5, 2, 1⟩ : ProgressRecord) ≠ (⟨7, 11, 6, 2, 1⟩ : ProgressRecord) := by
  refine ⟨rfl, ?_⟩
  decide

/-- C2, amended: for every progress record with non-negative integer
fields, `save(record)` then `load()` yields exactly the saved record's
`current_block` value (the other saved fields are persisted but not read
back by `load()`). -/
theorem C2_save_then_load (r : ProgressRecord) :
    load_progress (save_progress r) = .ok (.num r.current_block) :=
  load_progress_save_progress r

/-! ## Claim C8 — load() defaults and error behaviour -/

/-- C8, counterexample: a progress file holding valid JSON that is not an
object (here the JSON array `[]`) makes `load_progress` raise
`AttributeError` (from `data.get` on a list) to its caller, so `load()`
does not "never raise regardless of the file's state". -/
theorem C8_counterexample :
    loadRaises (load_progress (.parsed (.arr []))) = true ∧
    load_progress (.parsed (.arr [])) ≠ .ok (.num 0) := by
  refine ⟨rfl, ?_⟩
  intro h
  exact Except.noConfusion h

/-- C8, amended: `load()` returns the zero default when the file is absent
or its content is not parsable as JSON, and it raises if and only if the
content parses to a non-object JSON value (on which `data.get` raises
`AttributeError`). -/
theorem C8_load_default (st : ProgressFileState) :
    load_progress .absent = .ok (.num 0) ∧
    load_progress .invalid = .ok (.num 0) ∧
    (loadRaises (load_progress st) = true ↔
      ∃ j, st = .parsed j ∧ jsonIsObj j = false) := by
  refine ⟨rfl, rfl, ?_⟩
  cases st with
  | absent => simp [load_progress, loadRaises]
  | invalid => simp [load_progress, loadRaises]
  | parsed j => cases j <;> simp [load_progress, loadRaises, jsonIsObj]

/-! ## Claim C9 — balance value and formatting -/

/-- C9: the balance of an address is the service's integer `final_balance`
subunit value divided by 100000000, and the balance-log line for subunit
value 150000000 carries the amount formatted as `1.50000000`. -/
theorem C9_balance_value_and_format :
    (∀ (address : String) (n : Int),
      check_balance (some (.obj [(address, .obj [("final_balance", .num n)])])) address
        = (n : ℚ) / 100000000) ∧
    balanceLine "X"
        (check_balance (some (.obj [("X", .obj [("final_balance", .num 150000000)])])) "X")
      = "X - 1.50000000 BTC" := by
  constructor
  · intro address n
    simp [check_balance, jLookup]
  · have hv : check_balance
        (some (.obj [("X", .obj [("final_balance", .num 150000000)])])) "X"
        = (150000000 : ℚ) / 100000000 := by
      simp [check_balance, jLookup]
    rw [hv]
    have hs : ⌊((150000000 : ℚ) / 100000000) * 100000000 + 1 / 2⌋ = (150000000 : Int) := by
      norm_num
    unfold balanceLine format8f
    rw [hs]
    decide

/-! ## Claim C4 — absent fetch is a pure height advance -/

/-- C4: at every block height where the fetch returns absent, one iteration
of the scan loop leaves the logs, the counters and the progress file
untouched and advances the height by one. -/
theorem C4_absent_fetch_advances (env : ScanEnv) (fi : Nat) (st : ScanState)
    (h : env.fetch st.current_block = none) :
    scanStep env fi st = { st with current_block := st.current_block + 1 } := by
  unfold scanStep
  rw [h]

/-- An environment in which every fetch fails and a fresh scan state, used
as concrete instances below. -/
def envAllAbsent : ScanEnv :=
  ⟨fun _ => none, fun _ => none, 0⟩

def freshState : ScanState := ⟨0, [], [], 0, 0, .absent⟩

/-- C4, witness at a concrete environment and state. -/
theorem C4_absent_fetch_advances_witness :
    envAllAbsent.fetch freshState.current_block = none ∧
    scanStep envAllAbsent 1 freshState
      = { freshState with current_block := freshState.current_block + 1 } :=
  ⟨rfl, C4_absent_fetch_advances envAllAbsent 1 freshState rfl⟩

/-! ## Claim C3 — blocks per run with the default bound -/

/-- C3: with no explicit end block, `scan_blocks` sets `end_block =
start_block + 20` and the `while current_block <= end_block` loop runs for
the heights `start .. start + 20` inclusive — 21 iterations, one more than
the 20 announced by the source's own comment (`# Only 20 blocks per run on
Render`) and by `config.MAX_BLOCKS_PER_RUN = 20`.  The final summary height
is `start_block + 21` for every environment, i.e. 21 heights are visited. -/
theorem C3_default_run_is_21_blocks (env : ScanEnv) (current_file_index start_block : Nat)
    (st0 : ScanState) :
    (scan_blocks env current_file_index start_block none st0).2.current_block
      = start_block + 21 := by
  unfold scan_blocks
  simp only [Option.getD, scanIter_current_block]
  omega

/-! ## Claim C10 — rotating onto an existing index truncates it -/

/-- Key search over a cons cell whose head matches. -/
theorem findKey_cons_eq (p : Nat × FileLines) (rest : List (Nat × FileLines)) (i : Nat)
    (h : (p.1 == i) = true) :
    List.find? (fun q => q.1 == i) (p :: rest) = some p := by
  simp [List.find?_cons, h]

/-- Key search over a cons cell whose head does not match. -/
theorem findKey_cons_ne (p : Nat × FileLines) (rest : List (Nat × FileLines)) (i : Nat)
    (h : (p.1 == i) = false) :
    List.find? (fun q => q.1 == i) (p :: rest) = List.find? (fun q => q.1 == i) rest := by
  simp [List.find?_cons, h]

/-- Unfolding `lookupFile` over a cons cell. -/
theorem lookupFile_cons (q : Nat × FileLines) (l : List (Nat × FileLines)) (i : Nat) :
    lookupFile (q :: l) i = if (q.1 == i) = true then some q.2 else lookupFile l i := by
  cases h : (q.1 == i) with
  | true => simp [lookupFile, findKey_cons_eq _ _ _ h, h]
  | false => simp [lookupFile, findKey_cons_ne _ _ _ h, h]

/-- If index `i` occurs in `fs`, truncating it in place makes its content
`c`. -/
theorem lookupFile_map_upd (i : Nat) (c : FileLines) :
    ∀ fs : List (Nat × FileLines), (fs.find? (fun p => p.1 == i)).isSome = true →
      lookupFile (fs.map (fun p => if p.1 == i then (i, c) else p)) i = some c := by
  intro fs
  induction fs with
  | nil => intro h; simp at h
  | cons p rest ih =>
    intro h
    cases hpi : (p.1 == i) with
    | true =>
      rw [List.map_cons, if_pos hpi, lookupFile_cons]
      simp
    | false =>
      rw [List.map_cons, if_neg (by simp [hpi]), lookupFile_cons, if_neg (by simp [hpi])]
      apply ih
      rwa [findKey_cons_ne _ _ _ hpi] at h

/-- If index `i` does not occur in `fs`, appending a fresh `(i, c)` entry
makes its content `c`. -/
theorem lookupFile_append_new (i : Nat) (c : FileLines) :
    ∀ fs : List (Nat × FileLines), fs.find? (fun p => p.1 == i) = none →
      lookupFile (fs ++ [(i, c)]) i = some c := by
  intro fs
  induction fs with
  | nil =>
    intro _
    rw [List.nil_append, lookupFile_cons]
    simp
  | cons p rest ih =>
    intro h
    cases hpi : (p.1 == i) with
    | true =>
      rw [findKey_cons_eq _ _ _ hpi] at h
      exact Option.noConfusion h
    | false =>
      rw [findKey_cons_ne _ _ _ hpi] at h
      rw [List.cons_append, lookupFile_cons, if_neg (by simp [hpi])]
      exact ih h

/-- Helper: `open(path, 'w')` leaves the looked-up content of index `i`
equal to the new content. -/
theorem lookupFile_setFile_self (fs : List (Nat × FileLines)) (i : Nat) (c : FileLines) :
    lookupFile (setFile fs i c) i = some c := by
  unfold setFile
  by_cases h : (fs.find? (fun p => p.1 == i)).isSome = true
  · rw [if_pos h]
    exact lookupFile_map_upd i c fs h
  · rw [if_neg h]
    refine lookupFile_append_new i c fs ?_
    rcases hcase : fs.find? (fun p => p.1 == i) with _ | v
    · exact hcase
    · rw [hcase] at h
      exact absurd rfl h

/-- C10: if a batch pair already exists on disk at index
`current_file_index + 1`, rotating (`create_new_files`) moves onto that
index and truncates both of its files to empty, so any previously recorded
lines there are lost. -/
theorem C10_rotate_truncates_existing (d : DataDir) (current_file_index : Nat)
    (lines blines : FileLines)
    (ha : lookupFile d.addrFiles (current_file_index + 1) = some lines)
    (hb : lookupFile d.balFiles (current_file_index + 1) = some blines) :
    (create_new_files current_file_index d).1 = current_file_index + 1 ∧
    lookupFile (create_new_files current_file_index d).2.addrFiles
      (current_file_index + 1) = some [] ∧
    lookupFile (create_new_files current_file_index d).2.balFiles
      (current_file_index + 1) = some [] :=
  ⟨rfl, lookupFile_setFile_self _ _ _, lookupFile_setFile_self _ _ _⟩

/-- A directory holding a non-empty pair at index 2 while the active index
is 1, used as a concrete instance below. -/
def dirWithPair2 : DataDir := ⟨[(2, ["old"])], [(2, ["old - 1.00000000 BTC"])]⟩

/-- C10, witness: rotating from index 1 onto the existing non-empty pair 2
empties both files. -/
theorem C10_rotate_truncates_existing_witness :
    (lookupFile dirWithPair2.addrFiles 2 = some ["old"] ∧
     lookupFile dirWithPair2.balFiles 2 = some ["old - 1.00000000 BTC"]) ∧
    ((create_new_files 1 dirWithPair2).1 = 2 ∧
     lookupFile (create_new_files 1 dirWithPair2).2.addrFiles 2 = some [] ∧
     lookupFile (create_new_files 1 dirWithPair2).2.balFiles 2 = some []) :=
  ⟨⟨rfl, rfl⟩, C10_rotate_truncates_existing dirWithPair2 1 ["old"]
    ["old - 1.00000000 BTC"] rfl rfl⟩

/-! ## Claim C7 — extractor: deduplication and sampling bound -/

/-- Adding to the modelled set preserves duplicate-freeness. -/
theorem insertAddr_nodup (acc : List Json) (a : Json) (h : acc.Nodup) :
    (insertAddr acc a).Nodup := by
  unfold insertAddr
  by_cases hm : a ∈ acc
  · simp [hm, h]
  · simp [List.nodup_append, hm, h]

/-- Members of the set after an add were members before or are the added
value. -/
theorem mem_insertAddr {acc : List Json} {a x : Json} (h : x ∈ insertAddr acc a) :
    x ∈ acc ∨ x = a := by
  unfold insertAddr at h
  by_cases hm : a ∈ acc
  · rw [if_pos hm] at h
    exact .inl h
  · rw [if_neg hm] at h
    rcases List.mem_append.mp h with h1 | h2
    · exact .inl h1
    · right
      simpa using h2

/-- Invariant of the raising fold: if every step keeps the accumulator
duplicate-free and only adds values drawn from `g` of its element, the
whole fold (on the normal path and on the exception path alike) keeps the
accumulator duplicate-free and only adds values drawn from the elements
traversed. -/
theorem foldE_inv (f : List Json → Json → Except (List Json) (List Json))
    (g : Json → List Json)
    (hf : ∀ acc x, acc.Nodup →
      (exVal (f acc x)).Nodup ∧ ∀ a ∈ exVal (f acc x), a ∈ acc ∨ a ∈ g x) :
    ∀ (l acc : List Json), acc.Nodup →
      (exVal (foldE f acc l)).Nodup ∧
      ∀ a ∈ exVal (foldE f acc l), a ∈ acc ∨ a ∈ (l.map g).flatten := by
  intro l
  induction l with
  | nil =>
    intro acc h
    exact ⟨h, fun a ha => .inl ha⟩
  | cons x xs ih =>
    intro acc hacc
    have hx := hf acc x hacc
    cases hfx : f acc x with
    | ok acc2 =>
      rw [hfx] at hx
      simp only [exVal] at hx
      simp only [foldE, hfx]
      have h2 := ih acc2 hx.1
      refine ⟨h2.1, fun a ha => ?_⟩
      rcases h2.2 a ha with h1 | h1
      · rcases hx.2 a h1 with h3 | h3
        · exact .inl h3
        · right
          simp only [List.map_cons, List.flatten_cons, List.mem_append]
          exact .inl h3
      · right
        simp only [List.map_cons, List.flatten_cons, List.mem_append]
        exact .inr h1
    | error e =>
      rw [hfx] at hx
      simp only [exVal] at hx
      simp only [foldE, hfx]
      refine ⟨hx.1, fun a ha => ?_⟩
      simp only [exVal] at ha
      rcases hx.2 a ha with h1 | h1
      · exact .inl h1
      · right
        simp only [List.map_cons, List.flatten_cons, List.mem_append]
        exact .inl h1

/-- One output step of the extractor satisfies the fold invariant with
respect to that output's addresses. -/
theorem procOutput_inv (acc : List Json) (output : Json) (h : acc.Nodup) :
    (exVal (procOutput acc output)).Nodup ∧
    ∀ a ∈ exVal (procOutput acc output), a ∈ acc ∨ a ∈ outputAddrs output := by
  cases output with
  | obj fields =>
    cases hv : jLookup fields "addr" with
    | some v =>
      simp only [procOutput, hv, exVal]
      refine ⟨insertAddr_nodup acc v h, fun a ha => ?_⟩
      rcases mem_insertAddr ha with h1 | h1
      · exact .inl h1
      · right
        simp [outputAddrs, hv, h1]
    | none =>
      simp only [procOutput, hv, exVal]
      exact ⟨h, fun a ha => .inl ha⟩
  | null => exact ⟨h, fun a ha => .inl ha⟩
  | bool b => exact ⟨h, fun a ha => .inl ha⟩
  | num n => exact ⟨h, fun a ha => .inl ha⟩
  | str s => exact ⟨h, fun a ha => .inl ha⟩
  | arr l => exact ⟨h, fun a ha => .inl ha⟩

/-- One transaction step of the extractor satisfies the fold invariant with
respect to that transaction's output addresses. -/
theorem procTx_inv (acc : List Json) (tx : Json) (h : acc.Nodup) :
    (exVal (procTx acc tx)).Nodup ∧
    ∀ a ∈ exVal (procTx acc tx), a ∈ acc ∨ a ∈ txOutputAddrs tx := by
  cases tx with
  | obj fields =>
    cases hv : jLookup fields "out" with
    | some v =>
      cases v with
      | arr outs =>
        have hfold := foldE_inv procOutput outputAddrs procOutput_inv outs acc h
        simp only [procTx, hv]
        refine ⟨hfold.1, fun a ha => ?_⟩
        rcases hfold.2 a ha with h1 | h1
        · exact .inl h1
        · right
          simp only [txOutputAddrs, hv]
          exact h1
      | null =>
        simp only [procTx, hv, exVal]
        exact ⟨h, fun a ha => .inl ha⟩
      | bool b =>
        simp only [procTx, hv, exVal]
        exact ⟨h, fun a ha => .inl ha⟩
      | num n =>
        simp only [procTx, hv, exVal]
        exact ⟨h, fun a ha => .inl ha⟩
      | str s =>
        simp only [procTx, hv, exVal]
        exact ⟨h, fun a ha => .inl ha⟩
      | obj f2 =>
        simp only [procTx, hv, exVal]
        exact ⟨h, fun a ha => .inl ha⟩
    | none =>
      simp only [procTx, hv, exVal]
      exact ⟨h, fun a ha => .inl ha⟩
  | null => exact ⟨h, fun a ha => .inl ha⟩
  | bool b => exact ⟨h, fun a ha => .inl ha⟩
  | num n => exact ⟨h, fun a ha => .inl ha⟩
  | str s => exact ⟨h, fun a ha => .inl ha⟩
  | arr l => exact ⟨h, fun a ha => .inl ha⟩

/-- One block-segment step of the extractor satisfies the fold invariant
with respect to that segment's sampled (first 3 transactions) output
addresses. -/
theorem procBlock_inv (acc : List Json) (block : Json) (h : acc.Nodup) :
    (exVal (procBlock acc block)).Nodup ∧
    ∀ a ∈ exVal (procBlock acc block), a ∈ acc ∨ a ∈ blockSampledAddrs block := by
  cases block with
  | obj fields =>
    cases hv : jLookup fields "tx" with
    | some v =>
      cases v with
      | arr txs =>
        have hfold := foldE_inv procTx txOutputAddrs procTx_inv (txs.take 3) acc h
        simp only [procBlock, hv]
        refine ⟨hfold.1, fun a ha => ?_⟩
        rcases hfold.2 a ha with h1 | h1
        · exact .inl h1
        · right
          simp only [blockSampledAddrs, hv]
          exact h1
      | null =>
        simp only [procBlock, hv, exVal]
        exact ⟨h, fun a ha => .inl ha⟩
      | bool b =>
        simp only [procBlock, hv, exVal]
        exact ⟨h, fun a ha => .inl ha⟩
      | num n =>
        simp only [procBlock, hv, exVal]
        exact ⟨h, fun a ha => .inl ha⟩
      | str s =>
        simp only [procBlock, hv, exVal]
        exact ⟨h, fun a ha => .inl ha⟩
      | obj f2 =>
        simp only [procBlock, hv, exVal]
        exact ⟨h, fun a ha => .inl ha⟩
    | none =>
      simp only [procBlock, hv, exVal]
      exact ⟨h, fun a ha => .inl ha⟩
  | null => exact ⟨h, fun a ha => .inl ha⟩
  | bool b => exact ⟨h, fun a ha => .inl ha⟩
  | num n => exact ⟨h, fun a ha => .inl ha⟩
  | str s => exact ⟨h, fun a ha => .inl ha⟩
  | arr l => exact ⟨h, fun a ha => .inl ha⟩

/-- C7: on every input (malformed ones included) the extractor returns a
plain list with no duplicate address, every returned address occurs among
the output addresses of the sampled (first 3) transactions of the block
segments, and hence the result never holds more addresses than there are
distinct output addresses across those sampled transactions. -/
theorem C7_extractor_dedup_and_bound (block_data : Json) :
    (extract_addresses_from_block block_data).Nodup ∧
    (∀ a ∈ extract_addresses_from_block block_data, a ∈ sampledAddrs block_data) ∧
    (extract_addresses_from_block block_data).length
      ≤ (sampledAddrs block_data).dedup.length := by
  have key : (extract_addresses_from_block block_data).Nodup ∧
      ∀ a ∈ extract_addresses_from_block block_data, a ∈ sampledAddrs block_data := by
    cases block_data with
    | obj fields =>
      cases hv : jLookup fields "blocks" with
      | some v =>
        cases v with
        | arr blocks =>
          have hfold := foldE_inv procBlock blockSampledAddrs procBlock_inv blocks []
            List.nodup_nil
          simp only [extract_addresses_from_block, hv]
          refine ⟨hfold.1, fun a ha => ?_⟩
          rcases hfold.2 a ha with h1 | h1
          · exact absurd h1 (List.not_mem_nil a)
          · simp only [sampledAddrs, hv]
            exact h1
        | null =>
          simp only [extract_addresses_from_block, hv, exVal]
          exact ⟨List.nodup_nil, fun a ha => absurd ha (List.not_mem_nil a)⟩
        | bool b =>
          simp only [extract_addresses_from_block, hv, exVal]
          exact ⟨List.nodup_nil, fun a ha => absurd ha (List.not_mem_nil a)⟩
        | num n =>
          simp only [extract_addresses_from_block, hv, exVal]
          exact ⟨List.nodup_nil, fun a ha => absurd ha (List.not_mem_nil a)⟩
        | str s =>
          simp only [extract_addresses_from_block, hv, exVal]
          exact ⟨List.nodup_nil, fun a ha => absurd ha (List.not_mem_nil a)⟩
        | obj f2 =>
          simp only [extract_addresses_from_block, hv, exVal]
          exact ⟨List.nodup_nil, fun a ha => absurd ha (List.not_mem_nil a)⟩
      | none =>
        simp only [extract_addresses_from_block, hv, exVal]
        exact ⟨List.nodup_nil, fun a ha => absurd ha (List.not_mem_nil a)⟩
    | null => exact ⟨List.nodup_nil, fun a ha => absurd ha (List.not_mem_nil a)⟩
    | bool b => exact ⟨List.nodup_nil, fun a ha => absurd ha (List.not_mem_nil a)⟩
    | num n => exact ⟨List.nodup_nil, fun a ha => absurd ha (List.not_mem_nil a)⟩
    | str s => exact ⟨List.nodup_nil, fun a ha => absurd ha (List.not_mem_nil a)⟩
    | arr l => exact ⟨List.nodup_nil, fun a ha => absurd ha (List.not_mem_nil a)⟩
  refine ⟨key.1, key.2, ?_⟩
  have hsub : (extract_addresses_from_block block_data).toFinset
      ⊆ (sampledAddrs block_data).toFinset := by
    intro a ha
    rw [List.mem_toFinset] at ha ⊢
    exact key.2 a ha
  calc (extract_addresses_from_block block_data).length
      = (extract_addresses_from_block block_data).toFinset.card :=
        (List.toFinset_card_of_nodup key.1).symm
    _ ≤ (sampledAddrs block_data).toFinset.card := Finset.card_le_card hsub
    _ = (sampledAddrs block_data).dedup.length := List.card_toFinset _

/-! ## Claim C6 — rotate followed by list -/

/-- Membership is invariant under sorted insertion. -/
theorem mem_insertSorted (x y : FileInfo) (l : List FileInfo) :
    y ∈ insertSorted x l ↔ y = x ∨ y ∈ l := by
  induction l with
  | nil => simp [insertSorted]
  | cons z zs ih =>
    unfold insertSorted
    by_cases h : z.index < x.index
    · rw [if_pos h]
      simp only [List.mem_cons, ih]
      tauto
    · rw [if_neg h]
      simp only [List.mem_cons]

/-- Membership is invariant under the listing sort. -/
theorem mem_pySortedByIndex (y : FileInfo) (l : List FileInfo) :
    y ∈ pySortedByIndex l ↔ y ∈ l := by
  induction l with
  | nil => simp [pySortedByIndex]
  | cons x xs ih =>
    unfold pySortedByIndex at ih ⊢
    rw [List.foldr_cons, mem_insertSorted, ih]
    simp

/-- An entry appears in the raw listing exactly when its address file is an
entry of the directory and its balance companion exists, with the
respective line counts. -/
theorem mem_listingRaw (d : DataDir) (idx a b : Nat) :
    (⟨idx, a, b⟩ : FileInfo) ∈ listingRaw d ↔
      (∃ lines, (idx, lines) ∈ d.addrFiles ∧ lines.length = a) ∧
      (∃ bl, lookupFile d.balFiles idx = some bl ∧ bl.length = b) := by
  unfold listingRaw
  rw [List.mem_filterMap]
  constructor
  · rintro ⟨⟨pi, pl⟩, hp, hf⟩
    rcases hbl : lookupFile d.balFiles pi with _ | bl
    · rw [hbl] at hf
      exact absurd hf (by simp)
    · rw [hbl] at hf
      simp only [Option.some.injEq, FileInfo.mk.injEq] at hf
      obtain ⟨h1, h2, h3⟩ := hf
      subst h1
      exact ⟨⟨pl, hp, h2⟩, ⟨bl, hbl, h3⟩⟩
  · rintro ⟨⟨lines, hmem, hlen⟩, ⟨bl, hbl, hblen⟩⟩
    refine ⟨(idx, lines), hmem, ?_⟩
    rw [hbl]
    simp [hlen, hblen]

/-- The freshly written pair is an entry of the updated directory. -/
theorem mem_setFile_self (fs : List (Nat × FileLines)) (i : Nat) (c : FileLines) :
    (i, c) ∈ setFile fs i c := by
  unfold setFile
  by_cases h : (fs.find? (fun p => p.1 == i)).isSome = true
  · rw [if_pos h]
    rcases Option.isSome_iff_exists.mp h with ⟨p, hp⟩
    have hmem := List.mem_of_find?_eq_some hp
    have hkey := List.find?_some hp
    exact List.mem_map.mpr ⟨p, hmem, by rw [if_pos hkey]⟩
  · rw [if_neg h]
    exact List.mem_append.mpr (.inr (by simp))

/-- Writing index `i` does not add or remove entries at other indices. -/
theorem mem_setFile_ne (fs : List (Nat × FileLines)) (i j : Nat) (c l : FileLines)
    (hij : j ≠ i) : ((j, l) ∈ setFile fs i c ↔ (j, l) ∈ fs) := by
  unfold setFile
  by_cases h : (fs.find? (fun p => p.1 == i)).isSome = true
  · rw [if_pos h, List.mem_map]
    constructor
    · rintro ⟨p, hp, hupd⟩
      by_cases hpi : (p.1 == i) = true
      · rw [if_pos hpi] at hupd
        have : i = j := congrArg Prod.fst hupd
        exact absurd this.symm hij
      · rw [if_neg hpi] at hupd
        rwa [hupd] at hp
    · intro hmem
      refine ⟨(j, l), hmem, ?_⟩
      have hji : ((j : Nat) == i) = false := by
        simpa using hij
      rw [if_neg (by simp [hji])]
  · rw [if_neg h, List.mem_append]
    constructor
    · rintro (h1 | h2)
      · exact h1
      · simp only [List.mem_singleton, Prod.mk.injEq] at h2
        exact absurd h2.1 hij
    · exact .inl
/-- Writing index `i` does not change the looked-up content of other
indices. -/
theorem lookupFile_setFile_ne (fs : List (Nat × FileLines)) (i j : Nat) (c : FileLines)
    (hij : j ≠ i) : lookupFile (setFile fs i c) j = lookupFile fs j := by
  have hji : ((i : Nat) == j) = false := by
    simpa using Ne.symm hij
  unfold setFile
  by_cases h : (fs.find? (fun p => p.1 == i)).isSome = true
  · rw [if_pos h]
    clear h
    induction fs with
    | nil => rfl
    | cons p rest ih =>
      rw [List.map_cons]
      by_cases hpi : (p.1 == i) = true
      · have hp1 : p.1 = i := by simpa using hpi
        have hpj : (p.1 == j) = false := by
          rw [hp1]
          exact hji
        rw [if_pos hpi, lookupFile_cons, lookupFile_cons]
        rw [if_neg (by simp [hji]), if_neg (by simp [hpj])]
        exact ih
      · rw [if_neg hpi, lookupFile_cons, lookupFile_cons]
        by_cases hpj : (p.1 == j) = true
        · rw [if_pos hpj, if_pos hpj]
        · rw [if_neg hpj, if_neg hpj]
          exact ih
  · rw [if_neg h]
    clear h
    induction fs with
    | nil =>
      rw [List.nil_append, lookupFile_cons, if_neg (by simp [hji])]
    | cons p rest ih =>
      rw [List.cons_append, lookupFile_cons, lookupFile_cons]
      by_cases hpj : (p.1 == j) = true
      · rw [if_pos hpj, if_pos hpj]
      · rw [if_neg hpj, if_neg hpj]
        exact ih

/-- C6: for every state of the batch set, rotating (`create_new_files`) and
then listing includes the new index with zero address and balance counts,
and reports the previous active index's counts exactly as the listing
before the rotation did. -/
theorem C6_rotate_then_list (d : DataDir) (current_file_index : Nat) :
    ((⟨(create_new_files current_file_index d).1, 0, 0⟩ : FileInfo)
        ∈ get_available_files (create_new_files current_file_index d).2) ∧
    (∀ a b : Nat, ((⟨current_file_index, a, b⟩ : FileInfo)
        ∈ get_available_files (create_new_files current_file_index d).2 ↔
      (⟨current_file_index, a, b⟩ : FileInfo) ∈ get_available_files d)) := by
  have hd2a : (create_new_files current_file_index d).2.addrFiles
      = setFile d.addrFiles (current_file_index + 1) [] := rfl
  have hd2b : (create_new_files current_file_index d).2.balFiles
      = setFile d.balFiles (current_file_index + 1) [] := rfl
  have hne : current_file_index ≠ current_file_index + 1 := by omega
  constructor
  · rw [get_available_files, mem_pySortedByIndex]
    have : (create_new_files current_file_index d).1 = current_file_index + 1 := rfl
    rw [this, mem_listingRaw]
    constructor
    · refine ⟨[], ?_, rfl⟩
      rw [hd2a]
      exact mem_setFile_self _ _ _
    · refine ⟨[], ?_, rfl⟩
      rw [hd2b]
      exact lookupFile_setFile_self _ _ _
  · intro a b
    rw [get_available_files, get_available_files, mem_pySortedByIndex,
      mem_pySortedByIndex, mem_listingRaw, mem_listingRaw]
    constructor
    · rintro ⟨⟨lines, hmem, hlen⟩, ⟨bl, hbl, hblen⟩⟩
      rw [hd2a, mem_setFile_ne _ _ _ _ _ hne] at hmem
      rw [hd2b, lookupFile_setFile_ne _ _ _ _ hne] at hbl
      exact ⟨⟨lines, hmem, hlen⟩, ⟨bl, hbl, hblen⟩⟩
    · rintro ⟨⟨lines, hmem, hlen⟩, ⟨bl, hbl, hblen⟩⟩
      refine ⟨⟨lines, ?_, hlen⟩, ⟨bl, ?_, hblen⟩⟩
      · rw [hd2a, mem_setFile_ne _ _ _ _ _ hne]
        exact hmem
      · rw [hd2b, lookupFile_setFile_ne _ _ _ _ hne]
        exact hbl

/-! ## Claim C5 — cleanup retains the highest-indexed batches -/

/-- The listing order: ascending batch index. -/
def fiLE (x y : FileInfo) : Prop := x.index ≤ y.index

/-- The strict listing order. -/
def fiLT (x y : FileInfo) : Prop := x.index < y.index

/-- Sorted insertion preserves sortedness. -/
theorem insertSorted_sorted (x : FileInfo) (l : List FileInfo)
    (h : l.Sorted fiLE) : (insertSorted x l).Sorted fiLE := by
  induction l with
  | nil => simp [insertSorted, fiLE]
  | cons y ys ih =>
    rw [List.sorted_cons] at h
    unfold insertSorted
    by_cases hlt : y.index < x.index
    · rw [if_pos hlt, List.sorted_cons]
      refine ⟨?_, ih h.2⟩
      intro z hz
      rcases (mem_insertSorted x z ys).mp hz with rfl | hz2
      · exact Nat.le_of_lt hlt
      · exact h.1 z hz2
    · rw [if_neg hlt, List.sorted_cons]
      refine ⟨?_, by rw [List.sorted_cons]; exact h⟩
      intro z hz
      rcases List.mem_cons.mp hz with rfl | hz2
      · exact Nat.le_of_not_lt hlt
      · exact Nat.le_trans (Nat.le_of_not_lt hlt) (h.1 z hz2)

/-- The listing sort produces an index-sorted list. -/
theorem pySortedByIndex_sorted (l : List FileInfo) :
    (pySortedByIndex l).Sorted fiLE := by
  induction l with
  | nil => simp [pySortedByIndex]
  | cons x xs ih =>
    unfold pySortedByIndex at ih ⊢
    rw [List.foldr_cons]
    exact insertSorted_sorted x _ ih

/-- Sorted insertion is a permutation of plain insertion. -/
theorem insertSorted_perm (x : FileInfo) (l : List FileInfo) :
    (insertSorted x l).Perm (x :: l) := by
  induction l with
  | nil => exact List.Perm.refl _
  | cons y ys ih =>
    unfold insertSorted
    by_cases hlt : y.index < x.index
    · rw [if_pos hlt]
      exact (ih.cons y).trans (List.Perm.swap x y ys)
    · rw [if_neg hlt]

/-- The listing sort permutes its input. -/
theorem pySortedByIndex_perm (l : List FileInfo) :
    (pySortedByIndex l).Perm l := by
  induction l with
  | nil => exact List.Perm.refl _
  | cons x xs ih =>
    unfold pySortedByIndex at ih ⊢
    rw [List.foldr_cons]
    exact (insertSorted_perm x _).trans (ih.cons x)

/-- Sorting an already sorted listing changes nothing (the second
`files.sort` inside `cleanup_old_files` is a no-op). -/
theorem pySortedByIndex_of_sorted :
    ∀ l : List FileInfo, l.Sorted fiLE → pySortedByIndex l = l := by
  intro l
  induction l with
  | nil => intro _; rfl
  | cons x xs ih =>
    intro h
    rw [List.sorted_cons] at h
    unfold pySortedByIndex
    rw [List.foldr_cons]
    have hxs : pySortedByIndex xs = xs := ih h.2
    unfold pySortedByIndex at hxs
    rw [hxs]
    cases xs with
    | nil => rfl
    | cons y ys =>
      have hxy : ¬ y.index < x.index :=
        Nat.not_lt.mpr (h.1 y (by simp))
      unfold insertSorted
      rw [if_neg hxy]

/-- Deleting index `i` from a file list leaves lookups of other indices
unchanged. -/
theorem lookupFile_filter_ne (i j : Nat) (hij : j ≠ i) :
    ∀ bs : List (Nat × FileLines),
      lookupFile (bs.filter (fun p => p.1 != i)) j = lookupFile bs j := by
  intro bs
  induction bs with
  | nil => rfl
  | cons p rest ih =>
    rw [List.filter_cons]
    by_cases hpi : (p.1 == i) = true
    · have hp1 : p.1 = i := by simpa using hpi
      have hbne : (p.1 != i) = false := by simp [hp1]
      have hpj : (p.1 == j) = false := by
        rw [hp1]
        simpa using Ne.symm hij
      rw [hbne, if_neg (by simp), lookupFile_cons, if_neg (by simp [hpj])]
      exact ih
    · have hbne : (p.1 != i) = true := by
        simpa using hpi
      rw [hbne, if_pos rfl, lookupFile_cons, lookupFile_cons]
      by_cases hpj : (p.1 == j) = true
      · rw [if_pos hpj, if_pos hpj]
      · rw [if_neg hpj, if_neg hpj]
        exact ih

/-- Deleting one pair removes exactly that index from the raw listing. -/
theorem listingRaw_filter_aux (bs : List (Nat × FileLines)) (i : Nat) :
    ∀ fsList : List (Nat × FileLines),
      (fsList.filter (fun p => p.1 != i)).filterMap (fun p =>
        match lookupFile (bs.filter (fun p => p.1 != i)) p.1 with
        | some bl => some (⟨p.1, p.2.length, bl.length⟩ : FileInfo)
        | none => none)
      = (fsList.filterMap (fun p =>
          match lookupFile bs p.1 with
          | some bl => some (⟨p.1, p.2.length, bl.length⟩ : FileInfo)
          | none => none)).filter (fun fi => fi.index != i) := by
  intro fsList
  induction fsList with
  | nil => rfl
  | cons p rest ih =>
    rw [List.filter_cons, List.filterMap_cons]
    by_cases hpi : (p.1 == i) = true
    · have hp1 : p.1 = i := by simpa using hpi
      have hbne : (p.1 != i) = false := by simp [hp1]
      rw [hbne, if_neg (by simp)]
      cases hlk : lookupFile bs p.1 with
      | none =>
        rw [ih]
      | some bl =>
        rw [List.filter_cons]
        have : ((⟨p.1, p.2.length, bl.length⟩ : FileInfo).index != i) = false := by
          simp [hp1]
        rw [this, if_neg (by simp)]
        exact ih
    · have hbne : (p.1 != i) = true := by simpa using hpi
      have hne : p.1 ≠ i := by simpa using hpi
      rw [hbne, if_pos rfl, List.filterMap_cons, lookupFile_filter_ne i p.1 hne bs]
      cases hlk : lookupFile bs p.1 with
      | none =>
        rw [ih]
      | some bl =>
        rw [List.filter_cons]
        have : ((⟨p.1, p.2.length, bl.length⟩ : FileInfo).index != i) = true := by
          simpa using hpi
        rw [this, if_pos rfl, ih]

/-- `delete_files` filters the raw listing by index. -/
theorem listingRaw_delete (d : DataDir) (i : Nat) :
    listingRaw (delete_files d i).1
      = (listingRaw d).filter (fun fi => fi.index != i) :=
  listingRaw_filter_aux d.balFiles i d.addrFiles

/-- Folding deletions over a list of indices filters the raw listing by all
of them. -/
theorem listingRaw_deleteAll (ids : List Nat) :
    ∀ d : DataDir,
      listingRaw (ids.foldl (fun acc i => (delete_files acc i).1) d)
        = (listingRaw d).filter (fun fi => ! ids.contains fi.index) := by
  induction ids with
  | nil =>
    intro d
    simp
  | cons i ids ih =>
    intro d
    rw [List.foldl_cons, ih, listingRaw_delete, List.filter_filter]
    congr 1
    funext fi
    by_cases h1 : fi.index = i <;> by_cases h2 : fi.index ∈ ids <;>
      simp [List.contains_cons, List.elem_iff, h1, h2, bne]

/-- The indices of the raw listing form a sublist of the address-file
keys. -/
theorem filterMap_indices_sublist (bs : List (Nat × FileLines)) :
    ∀ fsList : List (Nat × FileLines),
      ((fsList.filterMap (fun p =>
        match lookupFile bs p.1 with
        | some bl => some (⟨p.1, p.2.length, bl.length⟩ : FileInfo)
        | none => none)).map (fun fi => fi.index)).Sublist
      (fsList.map (fun p => p.1)) := by
  intro fsList
  induction fsList with
  | nil => simp
  | cons p rest ih =>
    rw [List.filterMap_cons, List.map_cons]
    cases hlk : lookupFile bs p.1 with
    | none => exact ih.cons p.1
    | some bl =>
      rw [List.map_cons]
      exact ih.cons₂ p.1

/-- Sorted by `≤` on indices plus duplicate-free indices gives sorted by
`<` on indices. -/
theorem sorted_lt_of_le_nodup (l : List FileInfo) (hs : l.Sorted fiLE)
    (hn : (l.map (fun fi => fi.index)).Nodup) : l.Sorted fiLT := by
  have hpn : l.Pairwise (fun a b : FileInfo => a.index ≠ b.index) :=
    (List.pairwise_map).mp hn
  exact (hs.and hpn).imp (fun h => Nat.lt_of_le_of_ne h.1 h.2)

/-- Unfolding equation for `get_available_files`. -/
theorem get_available_files_def (x : DataDir) :
    get_available_files x = pySortedByIndex (listingRaw x) := rfl

/-- With duplicate-free address-file keys (a real directory), the listing
has duplicate-free indices. -/
theorem get_available_files_indices_nodup (d : DataDir) (hnd : keysNodup d.addrFiles) :
    ((get_available_files d).map (fun fi => fi.index)).Nodup := by
  have hnd' : (d.addrFiles.map (fun p => p.1)).Nodup := hnd
  have hrawn : ((listingRaw d).map (fun fi => fi.index)).Nodup := by
    unfold listingRaw
    exact (filterMap_indices_sublist d.balFiles d.addrFiles).nodup hnd'
  exact (((pySortedByIndex_perm (listingRaw d)).map (fun fi => fi.index)).nodup_iff).mpr hrawn

/-- On a directory with duplicate-free address-file keys, sorting a
filtered raw listing is the same as filtering the sorted listing. -/
theorem pySorted_filter_listingRaw (d : DataDir) (hnd : keysNodup d.addrFiles)
    (q : FileInfo → Bool) :
    pySortedByIndex ((listingRaw d).filter q) = (get_available_files d).filter q := by
  have hperm : (get_available_files d).Perm (listingRaw d) := pySortedByIndex_perm _
  have hfsorted : (get_available_files d).Sorted fiLE := pySortedByIndex_sorted _
  have hfn := get_available_files_indices_nodup d hnd
  have hP : (pySortedByIndex ((listingRaw d).filter q)).Perm
      ((get_available_files d).filter q) :=
    (pySortedByIndex_perm _).trans (hperm.symm.filter q)
  have hs1 : (pySortedByIndex ((listingRaw d).filter q)).Sorted fiLE :=
    pySortedByIndex_sorted _
  have hs2 : ((get_available_files d).filter q).Sorted fiLE :=
    List.Pairwise.filter q hfsorted
  have hn2 : (((get_available_files d).filter q).map (fun fi => fi.index)).Nodup :=
    ((List.filter_sublist _).map _).nodup hfn
  have hn1 : ((pySortedByIndex ((listingRaw d).filter q)).map (fun fi => fi.index)).Nodup :=
    ((hP.map _).nodup_iff).mpr hn2
  haveI : IsAntisymm FileInfo fiLT :=
    ⟨fun a b h1 h2 => absurd (Nat.lt_trans h1 h2) (Nat.lt_irrefl _)⟩
  exact List.eq_of_perm_of_sorted hP (sorted_lt_of_le_nodup _ hs1 hn1)
    (sorted_lt_of_le_nodup _ hs2 hn2)

/-- Filtering a duplicate-free listing by "index not among the first `t`
entries' indices" keeps exactly the suffix after position `t`. -/
theorem filter_not_take_indices (files : List FileInfo) (t : Nat)
    (hfn : (files.map (fun fi => fi.index)).Nodup) :
    files.filter (fun fi =>
        ! ((files.take t).map (fun fi => fi.index)).contains fi.index)
      = files.drop t := by
  have hdisj : List.Disjoint ((files.take t).map (fun fi => fi.index))
      ((files.drop t).map (fun fi => fi.index)) := by
    have h := hfn
    rw [← List.take_append_drop t files, List.map_append] at h
    exact List.disjoint_of_nodup_append h
  have key : ∀ (pred : FileInfo → Bool),
      (∀ fi ∈ files.take t, pred fi = false) →
      (∀ fi ∈ files.drop t, pred fi = true) →
      files.filter pred = files.drop t := by
    intro pred h1 h2
    conv_lhs => rw [← List.take_append_drop t files]
    rw [List.filter_append]
    have e1 : (files.take t).filter pred = [] := by
      rw [List.filter_eq_nil_iff]
      intro fi hfi
      simp [h1 fi hfi]
    have e2 : (files.drop t).filter pred = files.drop t := by
      rw [List.filter_eq_self]
      intro fi hfi
      exact h2 fi hfi
    rw [e1, e2, List.nil_append]
  apply key
  · intro fi hfi
    have hm : fi.index ∈ (files.take t).map (fun fi => fi.index) :=
      List.mem_map.mpr ⟨fi, hfi, rfl⟩
    have hc : ((files.take t).map (fun fi => fi.index)).contains fi.index = true :=
      List.elem_iff.mpr hm
    rw [hc]
    rfl
  · intro fi hfi
    have hmem : fi.index ∈ (files.drop t).map (fun fi => fi.index) :=
      List.mem_map.mpr ⟨fi, hfi, rfl⟩
    have hnotin : ¬ (((files.take t).map (fun fi => fi.index)).contains fi.index = true) :=
      fun hx => (List.disjoint_left.mp hdisj (List.elem_iff.mp hx)) hmem
    rw [Bool.eq_false_iff.mpr hnotin]
    rfl

/-- C5, amended: for `keep_count ≥ 1`, `cleanup_old_files` leaves exactly
the `keep_count` highest-indexed listed batches (the suffix of the sorted
listing) and reports having deleted the rest; when at most `keep_count`
batches exist, it is a no-op.  (For `keep_count = 0` the Python slice
`files[:-0]` is empty and nothing is deleted — see the counterexample.) -/
theorem C5_cleanup_keeps_highest (d : DataDir) (keep_count : Nat)
    (hk : 1 ≤ keep_count) (hnd : keysNodup d.addrFiles) :
    get_available_files (cleanup_old_files d keep_count).1
      = (get_available_files d).drop ((get_available_files d).length - keep_count) ∧
    (cleanup_old_files d keep_count).2
      = (get_available_files d).length - keep_count := by
  have hfsorted : (get_available_files d).Sorted fiLE := pySortedByIndex_sorted _
  have hfn := get_available_files_indices_nodup d hnd
  by_cases hle : (get_available_files d).length ≤ keep_count
  · have ht0 : (get_available_files d).length - keep_count = 0 := by omega
    rw [ht0, List.drop_zero]
    simp only [cleanup_old_files, if_pos hle]
    exact ⟨trivial, trivial⟩
  · have hkz : ¬ keep_count = 0 := by omega
    have hcl : cleanup_old_files d keep_count
        = (((get_available_files d).take
              ((get_available_files d).length - keep_count)).foldl
             (fun acc fi => (delete_files acc fi.index).1) d,
           ((get_available_files d).take
              ((get_available_files d).length - keep_count)).length) := by
      simp only [cleanup_old_files, if_neg hle]
      rw [pySortedByIndex_of_sorted _ hfsorted]
      simp only [pySliceDropLast, if_neg hkz]
    rw [hcl]
    constructor
    · have hfold : (((get_available_files d).take
              ((get_available_files d).length - keep_count)).foldl
             (fun acc fi => (delete_files acc fi.index).1) d)
          = ((((get_available_files d).take
                ((get_available_files d).length - keep_count)).map
              (fun fi => fi.index)).foldl (fun acc i => (delete_files acc i).1) d) := by
        rw [List.foldl_map]
      rw [hfold, get_available_files_def, listingRaw_deleteAll,
        pySorted_filter_listingRaw d hnd]
      exact filter_not_take_indices (get_available_files d)
        ((get_available_files d).length - keep_count) hfn
    · rw [List.length_take]
      omega

/-- A directory with a single batch pair at index 1 (one address line, no
balance lines). -/
def dirOneBatch : DataDir := ⟨[(1, ["a1"])], [(1, [])]⟩

/-- C5, counterexample: with `keep_count = 0` (retain zero batches — the
claim then demands deleting every batch), `cleanup_old_files` deletes
nothing, because the Python slice `files[:-0]` is `files[:0] = []`.  The
single existing batch survives both on disk and in the listing. -/
theorem C5_counterexample :
    (cleanup_old_files dirOneBatch 0).1 = dirOneBatch ∧
    (cleanup_old_files dirOneBatch 0).2 = 0 ∧
    get_available_files (cleanup_old_files dirOneBatch 0).1 = [⟨1, 1, 0⟩] := by
  refine ⟨?_, ?_, ?_⟩ <;> rfl

/-- Eight batch pairs with indices 1..8 and varying line counts. -/
def dirEightBatches : DataDir :=
  ⟨[(1, ["a"]), (2, ["a", "b"]), (3, []), (4, ["c"]), (5, []), (6, ["d"]),
    (7, []), (8, ["e"])],
   [(1, []), (2, ["x"]), (3, []), (4, []), (5, ["y"]), (6, []), (7, []), (8, [])]⟩

/-- C5, witness: `cleanup(keep_count=5)` on the eight batches 1..8 keeps
exactly the listing suffix `{4,...,8}` and reports 3 deletions. -/
theorem C5_cleanup_keeps_highest_witness :
    ((1 : Nat) ≤ 5 ∧ keysNodup dirEightBatches.addrFiles) ∧
    (get_available_files (cleanup_old_files dirEightBatches 5).1
        = (get_available_files dirEightBatches).drop
            ((get_available_files dirEightBatches).length - 5) ∧
     (cleanup_old_files dirEightBatches 5).2
        = (get_available_files dirEightBatches).length - 5) :=
  ⟨⟨by decide, by decide⟩,
   C5_cleanup_keeps_highest dirEightBatches 5 (by decide) (by decide)⟩

/-! ## Claim C1 — end-to-end scenario -/

/-- The block-height response for block 100: one block segment, one
transaction, one output carrying address `X`. -/
def blockDataX : Json :=
  .obj [("blocks", .arr [ .obj [("tx", .arr [ .obj [("out",
    .arr [ .obj [("addr", .str "X")] ])] ])] ])]

/-- The C1 environment: fetching block 100 succeeds with `blockDataX`,
fetching any other height returns absent; the balance service reports
`final_balance = 0` for every queried address. -/
def envC1 : ScanEnv :=
  ⟨fun h => if h == 100 then some blockDataX else none,
   fun a => some (.obj [(a, .obj [("final_balance", .num 0)])]),
   1700000000⟩

/-- The final scan state of the C1 scenario: start at block 100 with
run limit 2 (`end_block = start + 2 = 102` per the loop bound phrasing),
on a fresh state. -/
def scanC1 : ScanState :=
  (scan_blocks envC1 1 100 (some 102) ⟨0, [], [], 0, 0, .absent⟩).1

/-- In the C1 environment every balance check returns zero. -/
theorem envC1_balance_zero (a : String) :
    check_balance (envC1.balanceResp a) a = 0 := by
  simp [envC1, check_balance, jLookup]

/-- Full evaluation of the C1 scenario: block 100 contributes the single
address line `X` with a zero balance, blocks 101 and 102 are absent, the
progress file holds the record saved after block 100. -/
theorem scanC1_eval :
    scanC1 = ⟨103, ["X"], [], 1, 0,
      save_progress ⟨100, 1700000000, 1, 0, 1⟩⟩ := by
  have hPA : List.foldl (processAddress envC1) ⟨100, [], [], 0, 0, .absent⟩ [Json.str "X"]
      = ⟨100, ["X"], [], 1, 0, .absent⟩ := by
    rw [List.foldl_cons, processAddress_zero_balance envC1 _ _ (envC1_balance_zero _),
      List.foldl_nil]
    rfl
  have e1 : scanStep envC1 1 ⟨100, [], [], 0, 0, .absent⟩
      = (fun st1 : ScanState =>
          (⟨st1.current_block + 1, st1.addrLines, st1.balLines, st1.total_addresses,
            st1.addresses_with_balance,
            save_progress ⟨100, 1700000000, st1.total_addresses,
              st1.addresses_with_balance, 1⟩⟩ : ScanState))
        (List.foldl (processAddress envC1) ⟨100, [], [], 0, 0, .absent⟩ [Json.str "X"]) := rfl
  have hstep1 : scanStep envC1 1 ⟨100, [], [], 0, 0, .absent⟩
      = ⟨101, ["X"], [], 1, 0, save_progress ⟨100, 1700000000, 1, 0, 1⟩⟩ := by
    rw [e1, hPA]
  calc scanC1
      = scanIter envC1 1 2 (scanStep envC1 1 ⟨100, [], [], 0, 0, .absent⟩) := rfl
    _ = scanIter envC1 1 2
          ⟨101, ["X"], [], 1, 0, save_progress ⟨100, 1700000000, 1, 0, 1⟩⟩ := by
          rw [hstep1]
    _ = ⟨103, ["X"], [], 1, 0, save_progress ⟨100, 1700000000, 1, 0, 1⟩⟩ := rfl

/-- C1, counterexample: in the scenario (start 100, run limit 2, block 100
has the single output address `X` with balance 0, block 101 absent) the
address log is exactly `X`, the balance log is empty, the counters are 1
and 0 — but the saved progress record's block is 100, not 101: progress is
saved only after a successful fetch, with the just-processed height, and
the absent block 101 does not update it. -/
theorem C1_counterexample :
    scanC1.addrLines = ["X"] ∧ scanC1.balLines = [] ∧
    scanC1.total_addresses = 1 ∧ scanC1.addresses_with_balance = 0 ∧
    load_progress scanC1.progressFile = .ok (.num 100) ∧
    Json.num 100 ≠ Json.num 101 := by
  rw [scanC1_eval]
  exact ⟨rfl, rfl, rfl, rfl, rfl, by decide⟩

/-- C1, amended: the scenario ends with address log `[X]`, empty balance
log, total_addresses = 1, addresses_with_balance = 0, and the saved
progress record's block equal to 100 (the last successfully fetched
block). -/
theorem C1_end_to_end_scenario :
    scanC1.addrLines = ["X"] ∧ scanC1.balLines = [] ∧
    scanC1.total_addresses = 1 ∧ scanC1.addresses_with_balance = 0 ∧
    load_progress scanC1.progressFile = .ok (.num 100) := by
  rw [scanC1_eval]
  exact ⟨rfl, rfl, rfl, rfl, rfl⟩
